import Mathlib

/-!
Verification of the streaming record parser and multiplexed JSONL output
router in `src/golang/main.go` (`processFile`, `writeRecordToJSONL`,
`isReservedWord`).

The Go code is shallowly embedded:

* strings are Lean `String`s, manipulated through their `List Char` data;
* the Go `map[string]string` record is an association list
  `List (String × String)`; reading a missing key yields `""`, exactly like
  a Go map read, and assignment overwrites in place;
* `bufio.Reader.ReadString '\n'` delivering lines (each including its
  trailing newline) with the final unterminated chunk discarded on
  `io.EOF` is embedded by `readLines`;
* the side effects of `writeRecordToJSONL` (directory creation aside) are
  embedded as a pure state transformer on `RunState`, which additionally
  logs every open event, close event, per-file appended content and every
  record handed to the router;
* a read fault other than EOF is embedded as a `LineEvent.fault` item in
  the event stream; the Go code returns the error at that point.

`strings.EqualFold` is embedded as ASCII case folding (`Char.toLower`
folds exactly the ASCII range); Unicode simple folding beyond ASCII is not
modelled.  `filepath.Join` is embedded as `/`-separated concatenation,
which agrees with Go on the already-clean path components used here.
-/

/-- The two fields of `config.json` that `processFile` consumes
(`Config` in main.go). -/
structure Config where
  reservedWords : List String
  recordStart : String
deriving Repr, DecidableEq

/-- Go `strings.EqualFold` restricted to ASCII folding: both strings are
compared after mapping every ASCII letter to lower case. -/
def equalFold (a b : String) : Bool :=
  a.data.map Char.toLower == b.data.map Char.toLower

/-- `isReservedWord` from main.go: does `key` case-insensitively match some
configured reserved word? -/
def isReservedWord (config : Config) (key : String) : Bool :=
  config.reservedWords.any (fun word => equalFold word key)

/-- The character class trimmed by Go `strings.TrimSpace` on ASCII input
(the `asciiSpace` set of package `strings`). -/
def isGoSpace (c : Char) : Bool :=
  c = ' ' || c = '\t' || c = '\n' || c = '\x0b' || c = '\x0c' || c = '\r'

/-- Go `strings.TrimSpace` (ASCII range). -/
def trimSpace (s : String) : String :=
  String.mk (((s.data.dropWhile isGoSpace).reverse.dropWhile isGoSpace).reverse)

/-- Helper for `strings.Split (line, ":")`: split a character list at every
colon.  Always returns at least one chunk, mirroring Go's guarantee that
`strings.Split` with a non-empty separator is non-empty. -/
def splitColonAux : List Char → List Char → List (List Char)
  | [], acc => [acc.reverse]
  | c :: cs, acc =>
    if c = ':' then acc.reverse :: splitColonAux cs []
    else splitColonAux cs (c :: acc)

/-- Go `strings.Split (line, ":")`. -/
def splitColon (s : String) : List String :=
  (splitColonAux s.data []).map (fun l => String.mk l)

/-- Go `strings.Join (parts, ":")`. -/
def joinColon : List String → String
  | [] => ""
  | [s] => s
  | s :: s2 :: rest => s ++ ":" ++ joinColon (s2 :: rest)

/-- A Go map read `m[k]`: the stored value, or `""` when absent. -/
def mapGet : List (String × String) → String → String
  | [], _ => ""
  | (q, v) :: rest, k => if q = k then v else mapGet rest k

/-- A Go map assignment `m[k] = v`: overwrite the entry in place, or append
a new one. -/
def mapSet : List (String × String) → String → String → List (String × String)
  | [], k, v => [(k, v)]
  | (q, w) :: rest, k, v =>
    if q = k then (k, v) :: rest else (q, w) :: mapSet rest k v

/-- One record as accumulated by `processFile`: the Go
`map[string]string`, holding reserved fields and the synthetic `"data"`
body accumulator. -/
abbrev Rec := List (String × String)

/-- Contents of the output files: destination path mapped to the sequence
of records encoded into that file, in write order. -/
def filesGet : List (String × List Rec) → String → List Rec
  | [], _ => []
  | (q, v) :: rest, p => if q = p then v else filesGet rest p

/-- Append one encoded record to the file at path `p` (creating it when
absent), mirroring an append-mode write. -/
def filesAppend : List (String × List Rec) → String → Rec → List (String × List Rec)
  | [], p, r => [(p, [r])]
  | (q, v) :: rest, p, r =>
    if q = p then (q, v ++ [r]) :: rest else (q, v) :: filesAppend rest p r

/-- Go `strings.ReplaceAll (s, ",", "_")` (single-character replacement,
so a character map). -/
def replaceCommas (s : String) : String :=
  String.mk (s.data.map (fun c => if c = ',' then '_' else c))

/-- The routing key computed inside `writeRecordToJSONL`: the
`WARC-Identified-Content-Language` value with commas replaced by
underscores, defaulting to `"eng"` when that leaves the empty string. -/
def routingKey (record : Rec) : String :=
  let language := replaceCommas (mapGet record "WARC-Identified-Content-Language")
  if language = "" then "eng" else language

/-- The destination path `outputDir/<routingKey>/output.jsonl`
(`filepath.Join` on clean components). -/
def destPath (outputDir : String) (record : Rec) : String :=
  outputDir ++ "/" ++ routingKey record ++ "/output.jsonl"

/-- The observable state of one `processFile` run: the current record,
the cached open handles (`jsonlFiles` keys), the logs of open and close
events, the per-file contents, and the list of records handed to
`writeRecordToJSONL` (in call order). -/
structure RunState where
  record : Rec
  handles : List String
  opens : List String
  closes : List String
  files : List (String × List Rec)
  emitted : List Rec
deriving Repr, DecidableEq

/-- The state at entry to the read loop of `processFile`: empty record,
no cached handles, nothing written. -/
def initState : RunState :=
  { record := [], handles := [], opens := [], closes := [], files := [],
    emitted := [] }

/-- `writeRecordToJSONL` from main.go as a state transformer: compute the
destination path, open and cache a handle on first use of that path, and
append the JSON-encoded record to the file. -/
def writeRecordToJSONL (outputDir : String) (record : Rec) (st : RunState) :
    RunState :=
  let path := destPath outputDir record
  { record := st.record
    handles := if st.handles.contains path then st.handles
               else st.handles ++ [path]
    opens := if st.handles.contains path then st.opens
             else st.opens ++ [path]
    closes := st.closes
    files := filesAppend st.files path record
    emitted := st.emitted ++ [record] }

/-- One iteration of the read loop of `processFile` on a successfully read
line (which includes its trailing newline): sentinel lines flush the
current record to the router and reset it; reserved `key: value` lines
store the trimmed value under the original-casing key; every other line is
appended verbatim to the `"data"` accumulator. -/
def step (config : Config) (outputDir : String) (st : RunState)
    (line : String) : RunState :=
  if trimSpace line ≠ config.recordStart then
    let parts := splitColon line
    let key := parts.headD ""
    if 2 ≤ parts.length ∧ isReservedWord config key = true then
      let value := trimSpace (joinColon parts.tail)
      { st with record := mapSet st.record key value }
    else
      let body := mapGet st.record "data" ++ line
      { st with record := mapSet st.record "data" body }
  else
    let st2 := writeRecordToJSONL outputDir st.record st
    { st2 with record := [] }

/-- An item delivered by `reader.ReadString '\n'`: either a complete line
(with its newline) or a read fault other than `io.EOF`.  End of the list
is `io.EOF`. -/
inductive LineEvent where
  | line (s : String)
  | fault
deriving Repr, DecidableEq

/-- The read loop of `processFile` and its epilogue.  On clean EOF the
current record is flushed unconditionally and then every cached handle is
closed; on a read fault the function returns the error immediately,
closing no cached handle.  The Boolean is `true` on the success path. -/
def runEvents (config : Config) (outputDir : String) :
    List LineEvent → RunState → RunState × Bool
  | [], st =>
    let st2 := writeRecordToJSONL outputDir st.record st
    ({ st2 with closes := st2.closes ++ st2.handles }, true)
  | LineEvent.fault :: _, st => (st, false)
  | LineEvent.line l :: rest, st =>
    runEvents config outputDir rest (step config outputDir st l)

/-- Split raw input into the lines `ReadString '\n'` yields before EOF:
maximal chunks ending in `'\n'`.  A trailing chunk with no newline is
delivered together with `io.EOF`, and `processFile` breaks out of the loop
without processing it, so it is dropped here. -/
def linesAux : List Char → List Char → List (List Char)
  | [], _ => []
  | c :: cs, acc =>
    if c = '\n' then (acc ++ [c]) :: linesAux cs []
    else linesAux cs (acc ++ [c])

/-- The line sequence `processFile` processes for a given decompressed
input text. -/
def readLines (s : String) : List String :=
  (linesAux s.data []).map (fun l => String.mk l)

/-- `processFile` on a decompressed input text that produces no read
fault: run the loop over the input's complete lines from the initial
state. -/
def processFile (config : Config) (outputDir : String) (input : String) :
    RunState × Bool :=
  runEvents config outputDir ((readLines input).map LineEvent.line) initState

/-- Routing a list of completed records through `writeRecordToJSONL`
in order, sharing one handle-cache session. -/
def routeAll (outputDir : String) (records : List Rec) (st : RunState) :
    RunState :=
  records.foldl (fun s r => writeRecordToJSONL outputDir r s) st

/-- The text of a line before its first colon (the whole line when it has
no colon).  Used to state claims about `key: value` lines independently of
the `strings.Split` mechanics. -/
def beforeFirstColon (s : String) : String :=
  String.mk (s.data.takeWhile (fun c => c != ':'))

/-- The text of a line after its first colon (empty when it has no
colon). -/
def afterFirstColon (s : String) : String :=
  String.mk ((s.data.dropWhile (fun c => c != ':')).tail)

/-- Proof helper: rejoin character-list chunks with `':'`, the character
level counterpart of `joinColon`. -/
def charJoin : List (List Char) → List Char
  | [] => []
  | [l] => l
  | l :: l2 :: rest => l ++ ':' :: charJoin (l2 :: rest)

/-- The number of sentinel lines in a line sequence: lines whose
`TrimSpace` equals the configured `record_start`. -/
def countSentinels (config : Config) (lines : List String) : Nat :=
  lines.countP (fun l => trimSpace l == config.recordStart)

/-- The routing key in the words of the spec: the language field value
with every comma replaced by an underscore, defaulting to `"eng"` when the
field is absent or empty.  Stated separately from `routingKey` (which is
translated from the code, where the default is applied after the
replacement) so that the two can be compared. -/
def routingKeySpec (record : Rec) : String :=
  let v := mapGet record "WARC-Identified-Content-Language"
  if v = "" then "eng" else replaceCommas v

/-- An input text truncated after its last newline character (everything
from the last `'\n'` on, exclusive, removed; the whole text when it has no
newline becomes empty). -/
def truncAfterLastNewline (s : String) : String :=
  String.mk ((s.data.reverse.dropWhile (fun c => c != '\n')).reverse)

/-- Proof helper: forward-recursive characterisation of
`truncAfterLastNewline`. -/
def truncF : List Char → List Char
  | [] => []
  | c :: cs =>
    if '\n' ∈ cs then c :: truncF cs
    else if c = '\n' then [c] else []

/-! ### Projection lemmas for the router and the loop body -/

@[simp]
theorem write_record (d : String) (r : Rec) (st : RunState) :
    (writeRecordToJSONL d r st).record = st.record := rfl

@[simp]
theorem write_emitted (d : String) (r : Rec) (st : RunState) :
    (writeRecordToJSONL d r st).emitted = st.emitted ++ [r] := rfl

@[simp]
theorem write_closes (d : String) (r : Rec) (st : RunState) :
    (writeRecordToJSONL d r st).closes = st.closes := rfl

@[simp]
theorem write_files (d : String) (r : Rec) (st : RunState) :
    (writeRecordToJSONL d r st).files
      = filesAppend st.files (destPath d r) r := rfl

theorem write_handles (d : String) (r : Rec) (st : RunState) :
    (writeRecordToJSONL d r st).handles
      = if st.handles.contains (destPath d r) then st.handles
        else st.handles ++ [destPath d r] := rfl

theorem write_opens (d : String) (r : Rec) (st : RunState) :
    (writeRecordToJSONL d r st).opens
      = if st.handles.contains (destPath d r) then st.opens
        else st.opens ++ [destPath d r] := rfl

theorem step_sentinel (cfg : Config) (d : String) (st : RunState)
    (l : String) (h : trimSpace l = cfg.recordStart) :
    step cfg d st l
      = { writeRecordToJSONL d st.record st with record := [] } := by
  simp [step, h]

theorem step_emitted (cfg : Config) (d : String) (st : RunState)
    (l : String) :
    (step cfg d st l).emitted
      = if trimSpace l = cfg.recordStart then st.emitted ++ [st.record]
        else st.emitted := by
  by_cases h : trimSpace l = cfg.recordStart
  · simp [step, h]
  · simp only [step, if_pos h, if_neg (fun hh => h hh), ite_not]
    split <;> rfl

theorem step_ns_handles (cfg : Config) (d : String) (st : RunState)
    (l : String) (h : trimSpace l ≠ cfg.recordStart) :
    (step cfg d st l).handles = st.handles := by
  simp only [step, if_pos h]
  split <;> rfl

theorem step_ns_opens (cfg : Config) (d : String) (st : RunState)
    (l : String) (h : trimSpace l ≠ cfg.recordStart) :
    (step cfg d st l).opens = st.opens := by
  simp only [step, if_pos h]
  split <;> rfl

theorem step_ns_closes (cfg : Config) (d : String) (st : RunState)
    (l : String) (h : trimSpace l ≠ cfg.recordStart) :
    (step cfg d st l).closes = st.closes := by
  simp only [step, if_pos h]
  split <;> rfl

theorem step_ns_files (cfg : Config) (d : String) (st : RunState)
    (l : String) (h : trimSpace l ≠ cfg.recordStart) :
    (step cfg d st l).files = st.files := by
  simp only [step, if_pos h]
  split <;> rfl

theorem step_ns_emitted (cfg : Config) (d : String) (st : RunState)
    (l : String) (h : trimSpace l ≠ cfg.recordStart) :
    (step cfg d st l).emitted = st.emitted := by
  simp only [step, if_pos h]
  split <;> rfl

theorem step_ns_record (cfg : Config) (d : String) (st : RunState)
    (l : String) (h : trimSpace l ≠ cfg.recordStart) :
    (step cfg d st l).record
      = if 2 ≤ (splitColon l).length
             ∧ isReservedWord cfg ((splitColon l).headD "") = true
        then mapSet st.record ((splitColon l).headD "")
              (trimSpace (joinColon (splitColon l).tail))
        else mapSet st.record "data" (mapGet st.record "data" ++ l) := by
  simp only [step, if_pos h]
  split <;> rfl

/-! ### Splitting on colons: bridge to before/after the first colon -/

theorem splitColonAux_ne_nil (cs : List Char) : ∀ acc, splitColonAux cs acc ≠ [] := by
  induction cs with
  | nil => intro acc; simp [splitColonAux]
  | cons c cs ih =>
    intro acc
    by_cases h : c = ':' <;> simp [splitColonAux, h]
    · exact ih _

theorem splitColonAux_head (cs : List Char) :
    ∀ acc, (splitColonAux cs acc).headD []
      = acc.reverse ++ cs.takeWhile (fun c => c != ':') := by
  induction cs with
  | nil => intro acc; simp [splitColonAux]
  | cons c cs ih =>
    intro acc
    by_cases h : c = ':'
    · simp [splitColonAux, h, List.takeWhile_cons]
    · simp only [splitColonAux, if_neg h]
      rw [ih (c :: acc)]
      simp [List.takeWhile_cons, h]

theorem charJoin_cons_ne (l : List Char) (ls : List (List Char))
    (h : ls ≠ []) : charJoin (l :: ls) = l ++ ':' :: charJoin ls := by
  cases ls with
  | nil => exact absurd rfl h
  | cons l2 rest => rfl

theorem charJoin_splitColonAux (cs : List Char) :
    ∀ acc, charJoin (splitColonAux cs acc) = acc.reverse ++ cs := by
  induction cs with
  | nil => intro acc; simp [splitColonAux, charJoin]
  | cons c cs ih =>
    intro acc
    by_cases h : c = ':'
    · simp only [splitColonAux, if_pos h]
      rw [charJoin_cons_ne _ _ (splitColonAux_ne_nil cs [])]
      rw [ih []]
      simp [h]
    · simp only [splitColonAux, if_neg h]
      rw [ih (c :: acc)]
      simp

theorem splitColonAux_tail_join (cs : List Char) :
    ∀ acc, charJoin ((splitColonAux cs acc).tail)
      = (cs.dropWhile (fun c => c != ':')).tail := by
  induction cs with
  | nil => intro acc; simp [splitColonAux, charJoin]
  | cons c cs ih =>
    intro acc
    by_cases h : c = ':'
    · simp only [splitColonAux, if_pos h, List.tail_cons]
      rw [charJoin_splitColonAux cs []]
      simp [List.dropWhile_cons, h]
    · simp only [splitColonAux, if_neg h]
      rw [ih (c :: acc)]
      simp [List.dropWhile_cons, h]

theorem splitColonAux_two_iff (cs : List Char) :
    ∀ acc, 2 ≤ (splitColonAux cs acc).length ↔ ':' ∈ cs := by
  induction cs with
  | nil => intro acc; simp [splitColonAux]
  | cons c cs ih =>
    intro acc
    by_cases h : c = ':'
    · have hne := splitColonAux_ne_nil cs ([] : List Char)
      have hpos : 1 ≤ (splitColonAux cs []).length :=
        List.length_pos.mpr hne
      simp [splitColonAux, h]
      omega
    · simp [splitColonAux, h, ih (c :: acc)]
      exact fun he => absurd he.symm h

theorem splitColon_head (s : String) :
    (splitColon s).headD "" = beforeFirstColon s := by
  have h1 := splitColonAux_head s.data []
  cases h : splitColonAux s.data [] with
  | nil => exact absurd h (splitColonAux_ne_nil _ _)
  | cons x xs =>
    rw [h] at h1
    simp at h1
    simp [splitColon, h, beforeFirstColon, h1]

theorem joinColon_map_mk (ls : List (List Char)) :
    joinColon (ls.map (fun l => String.mk l)) = String.mk (charJoin ls) := by
  induction ls with
  | nil => rfl
  | cons l rest ih =>
    cases rest with
    | nil => rfl
    | cons l2 rest2 =>
      simp only [List.map_cons] at ih ⊢
      rw [joinColon, charJoin, ih]
      have h1 : String.mk l ++ ":" ++ String.mk (charJoin (l2 :: rest2))
          = String.mk ((l ++ [':']) ++ charJoin (l2 :: rest2)) := rfl
      rw [h1]
      have h2 : (l ++ [':']) ++ charJoin (l2 :: rest2)
          = l ++ ':' :: charJoin (l2 :: rest2) := by simp
      rw [h2]

theorem map_mk_tail (xs : List (List Char)) :
    (xs.map (fun l => String.mk l)).tail
      = xs.tail.map (fun l => String.mk l) := by
  cases xs <;> simp

theorem splitColon_tail_join (s : String) :
    joinColon (splitColon s).tail = afterFirstColon s := by
  rw [splitColon, map_mk_tail, joinColon_map_mk,
    splitColonAux_tail_join s.data []]
  rfl

theorem splitColon_two_iff (s : String) :
    2 ≤ (splitColon s).length ↔ ':' ∈ s.data := by
  rw [splitColon, List.length_map]
  exact splitColonAux_two_iff s.data []

/-! ### Association-list lemmas for records and file contents -/

theorem mapGet_mapSet_self (m : Rec) (k v : String) :
    mapGet (mapSet m k v) k = v := by
  induction m with
  | nil => simp [mapGet, mapSet]
  | cons p rest ih =>
    obtain ⟨q, w⟩ := p
    by_cases h : q = k <;> simp [mapGet, mapSet, h, ih]

theorem mapGet_mapSet_ne (m : Rec) (k k' v : String) (h : k' ≠ k) :
    mapGet (mapSet m k v) k' = mapGet m k' := by
  induction m with
  | nil => simp [mapGet, mapSet, Ne.symm h]
  | cons p rest ih =>
    obtain ⟨q, w⟩ := p
    by_cases hq : q = k
    · subst hq
      simp [mapGet, mapSet, Ne.symm h]
    · by_cases hq' : q = k' <;> simp [mapGet, mapSet, hq, hq', ih, h]

theorem keys_mapSet (m : Rec) (k v : String) :
    (mapSet m k v).map Prod.fst
      = if k ∈ m.map Prod.fst then m.map Prod.fst
        else m.map Prod.fst ++ [k] := by
  induction m with
  | nil => simp [mapSet]
  | cons p rest ih =>
    obtain ⟨q, w⟩ := p
    by_cases hq : q = k
    · subst hq
      simp [mapSet]
    · simp only [mapSet, if_neg hq, List.map_cons, ih]
      by_cases hm : k ∈ rest.map Prod.fst <;>
        simp [hm, Ne.symm hq]

theorem nodupKeys_mapSet (m : Rec) (k v : String)
    (h : (m.map Prod.fst).Nodup) :
    ((mapSet m k v).map Prod.fst).Nodup := by
  rw [keys_mapSet]
  by_cases hm : k ∈ m.map Prod.fst
  · simp [hm, h]
  · simp [hm, h, List.nodup_append]

theorem countP_key (m : Rec) (k : String) :
    m.countP (fun p => p.1 == k) = (m.map Prod.fst).count k := by
  simp [List.count, List.countP_map]
  rfl

theorem count_keys_mapSet (m : Rec) (k v : String)
    (h : (m.map Prod.fst).Nodup) :
    ((mapSet m k v).map Prod.fst).count k = 1 := by
  rw [keys_mapSet]
  by_cases hm : k ∈ m.map Prod.fst
  · simp only [if_pos hm]
    exact List.count_eq_one_of_mem h hm
  · simp only [if_neg hm]
    rw [List.count_append]
    rw [List.count_eq_zero.mpr hm]
    simp

theorem filesGet_filesAppend_self (f : List (String × List Rec))
    (p : String) (r : Rec) :
    filesGet (filesAppend f p r) p = filesGet f p ++ [r] := by
  induction f with
  | nil => simp [filesGet, filesAppend]
  | cons e rest ih =>
    obtain ⟨q, v⟩ := e
    by_cases h : q = p <;> simp [filesGet, filesAppend, h, ih]

/-! ### Run-level lemmas -/

theorem runEvents_cons_line (cfg : Config) (d : String) (l : String)
    (ls : List LineEvent) (st : RunState) :
    runEvents cfg d (LineEvent.line l :: ls) st
      = runEvents cfg d ls (step cfg d st l) := rfl

theorem runEvents_nil (cfg : Config) (d : String) (st : RunState) :
    runEvents cfg d [] st
      = ({ writeRecordToJSONL d st.record st with
            closes := st.closes ++ (writeRecordToJSONL d st.record st).handles },
          true) := rfl

theorem runEvents_line_true (cfg : Config) (d : String) (ls : List String) :
    ∀ st, (runEvents cfg d (ls.map LineEvent.line) st).2 = true := by
  induction ls with
  | nil => intro st; rfl
  | cons l ls ih => intro st; exact ih (step cfg d st l)

theorem runEvents_emitted_length (cfg : Config) (d : String)
    (ls : List String) :
    ∀ st, ((runEvents cfg d (ls.map LineEvent.line) st).1).emitted.length
      = st.emitted.length + countSentinels cfg ls + 1 := by
  induction ls with
  | nil =>
    intro st
    simp [runEvents, countSentinels]
  | cons l ls ih =>
    intro st
    rw [List.map_cons, runEvents_cons_line, ih (step cfg d st l)]
    rw [step_emitted]
    by_cases h : trimSpace l = cfg.recordStart <;>
      (simp [h, countSentinels, List.countP_cons]; try omega)

theorem runEvents_emitted_extend (cfg : Config) (d : String)
    (ls : List String) :
    ∀ st, ∃ t, ((runEvents cfg d (ls.map LineEvent.line) st).1).emitted
      = st.emitted ++ t := by
  induction ls with
  | nil =>
    intro st
    exact ⟨[st.record], by simp [runEvents]⟩
  | cons l ls ih =>
    intro st
    rw [List.map_cons, runEvents_cons_line]
    obtain ⟨t, ht⟩ := ih (step cfg d st l)
    rw [ht, step_emitted]
    by_cases h : trimSpace l = cfg.recordStart
    · exact ⟨[st.record] ++ t, by simp [h]⟩
    · exact ⟨t, by simp [h]⟩

theorem write_oh (d : String) (r : Rec) (st : RunState)
    (h2 : st.opens = st.handles) (h3 : st.handles.Nodup) :
    (writeRecordToJSONL d r st).opens = (writeRecordToJSONL d r st).handles
    ∧ (writeRecordToJSONL d r st).handles.Nodup := by
  constructor
  · rw [write_opens, write_handles, h2]
  · rw [write_handles]
    by_cases hc : st.handles.contains (destPath d r)
    · have hm : destPath d r ∈ st.handles := List.elem_iff.mp hc
      simp [hc, hm, h3]
    · have hm : destPath d r ∉ st.handles := by
        intro hmem
        exact hc (List.elem_iff.mpr hmem)
      simp [hc, h3, List.nodup_append, hm]

theorem write_inv (d : String) (r : Rec) (st : RunState)
    (h1 : st.closes = []) (h2 : st.opens = st.handles)
    (h3 : st.handles.Nodup) :
    (writeRecordToJSONL d r st).closes = []
    ∧ (writeRecordToJSONL d r st).opens = (writeRecordToJSONL d r st).handles
    ∧ (writeRecordToJSONL d r st).handles.Nodup := by
  obtain ⟨w2, w3⟩ := write_oh d r st h2 h3
  exact ⟨h1, w2, w3⟩

theorem step_inv (cfg : Config) (d : String) (st : RunState) (l : String)
    (h1 : st.closes = []) (h2 : st.opens = st.handles)
    (h3 : st.handles.Nodup) :
    (step cfg d st l).closes = []
    ∧ (step cfg d st l).opens = (step cfg d st l).handles
    ∧ (step cfg d st l).handles.Nodup := by
  by_cases h : trimSpace l = cfg.recordStart
  · rw [step_sentinel cfg d st l h]
    exact write_inv d st.record st h1 h2 h3
  · rw [step_ns_closes cfg d st l h, step_ns_opens cfg d st l h,
      step_ns_handles cfg d st l h]
    exact ⟨h1, h2, h3⟩

theorem runEvents_success_closed (cfg : Config) (d : String)
    (ls : List String) :
    ∀ st, st.closes = [] → st.opens = st.handles → st.handles.Nodup →
    ((runEvents cfg d (ls.map LineEvent.line) st).1).closes
        = ((runEvents cfg d (ls.map LineEvent.line) st).1).opens
    ∧ ((runEvents cfg d (ls.map LineEvent.line) st).1).closes.Nodup := by
  induction ls with
  | nil =>
    intro st h1 h2 h3
    obtain ⟨w1, w2, w3⟩ := write_inv d st.record st h1 h2 h3
    rw [List.map_nil, runEvents_nil]
    refine ⟨?_, ?_⟩
    · show st.closes ++ (writeRecordToJSONL d st.record st).handles
        = (writeRecordToJSONL d st.record st).opens
      rw [h1, w2]
      simp
    · show (st.closes ++ (writeRecordToJSONL d st.record st).handles).Nodup
      rw [h1]
      simpa using w3
  | cons l ls ih =>
    intro st h1 h2 h3
    obtain ⟨s1, s2, s3⟩ := step_inv cfg d st l h1 h2 h3
    rw [List.map_cons, runEvents_cons_line]
    exact ih (step cfg d st l) s1 s2 s3

/-! ### Router-session lemmas -/

theorem routeAll_cons (d : String) (r : Rec) (rs : List Rec) (st : RunState) :
    routeAll d (r :: rs) st = routeAll d rs (writeRecordToJSONL d r st) := rfl

theorem routeAll_inv (d : String) (rs : List Rec) :
    ∀ st, st.opens = st.handles → st.handles.Nodup →
    (routeAll d rs st).opens = (routeAll d rs st).handles
    ∧ (routeAll d rs st).handles.Nodup := by
  induction rs with
  | nil => intro st h2 h3; exact ⟨h2, h3⟩
  | cons r rs ih =>
    intro st h2 h3
    rw [routeAll_cons]
    obtain ⟨w2, w3⟩ := write_oh d r st h2 h3
    exact ih (writeRecordToJSONL d r st) w2 w3

theorem routeAll_replicate_cached (d : String) (r : Rec) (n : Nat) :
    ∀ st, st.handles.contains (destPath d r) = true →
    (routeAll d (List.replicate n r) st).opens = st.opens
    ∧ (routeAll d (List.replicate n r) st).handles = st.handles
    ∧ filesGet (routeAll d (List.replicate n r) st).files (destPath d r)
        = filesGet st.files (destPath d r) ++ List.replicate n r := by
  induction n with
  | zero => intro st _; simp [routeAll]
  | succ n ih =>
    intro st hc
    rw [List.replicate_succ, routeAll_cons]
    have hw_opens : (writeRecordToJSONL d r st).opens = st.opens := by
      rw [write_opens, if_pos hc]
    have hw_handles : (writeRecordToJSONL d r st).handles = st.handles := by
      rw [write_handles, if_pos hc]
    have hc2 : (writeRecordToJSONL d r st).handles.contains (destPath d r)
        = true := by rw [hw_handles]; exact hc
    obtain ⟨i1, i2, i3⟩ := ih (writeRecordToJSONL d r st) hc2
    refine ⟨by rw [i1, hw_opens], by rw [i2, hw_handles], ?_⟩
    rw [i3]
    rw [write_files, filesGet_filesAppend_self]
    simp

/-! ### Line splitting and truncation after the last newline -/

theorem linesAux_no_newline (cs : List Char) (h : '\n' ∉ cs) :
    ∀ acc, linesAux cs acc = [] := by
  induction cs with
  | nil => intro acc; rfl
  | cons c cs ih =>
    intro acc
    have hc : c ≠ '\n' := fun he => h (he ▸ List.mem_cons_self c cs)
    have hcs : '\n' ∉ cs := fun hm => h (List.mem_cons_of_mem c hm)
    simp only [linesAux, if_neg hc]
    exact ih hcs _

theorem truncF_eq (cs : List Char) :
    (cs.reverse.dropWhile (fun c => c != '\n')).reverse = truncF cs := by
  induction cs with
  | nil => rfl
  | cons c cs ih =>
    have hrev : (c :: cs).reverse = cs.reverse ++ [c] := by simp
    rw [hrev, List.dropWhile_append]
    by_cases hm : '\n' ∈ cs
    · have hne : cs.reverse.dropWhile (fun c => c != '\n') ≠ [] := by
        intro he
        have h2 := List.dropWhile_eq_nil_iff.mp he '\n' (by simpa using hm)
        simp at h2
      have hie : (cs.reverse.dropWhile (fun c => c != '\n')).isEmpty = false := by
        cases hh : (cs.reverse.dropWhile (fun c => c != '\n')).isEmpty
        · rfl
        · exact absurd (List.isEmpty_iff.mp hh) hne
      rw [hie]
      simp only [Bool.false_eq_true, if_false]
      rw [List.reverse_append]
      have ht : truncF (c :: cs) = c :: truncF cs := by
        simp [truncF, hm]
      rw [ht, ← ih]
      simp
    · have hie : (cs.reverse.dropWhile (fun c => c != '\n')).isEmpty = true := by
        rw [List.isEmpty_iff]
        rw [List.dropWhile_eq_nil_iff]
        intro x hx
        have hxcs : x ∈ cs := by simpa using hx
        have hxne : x ≠ '\n' := fun he => hm (he ▸ hxcs)
        simpa using hxne
      rw [hie]
      simp only [if_true]
      by_cases hc : c = '\n'
      · subst hc
        simp [truncF, hm, List.dropWhile_cons]
      · simp [truncF, hm, hc, List.dropWhile_cons]

theorem linesAux_truncF (cs : List Char) :
    ∀ acc, linesAux cs acc = linesAux (truncF cs) acc := by
  induction cs with
  | nil => intro acc; rfl
  | cons c cs ih =>
    intro acc
    by_cases hm : '\n' ∈ cs
    · have ht : truncF (c :: cs) = c :: truncF cs := by simp [truncF, hm]
      rw [ht]
      by_cases hc : c = '\n'
      · simp only [linesAux, if_pos hc]
        rw [ih []]
      · simp only [linesAux, if_neg hc]
        rw [ih (acc ++ [c])]
    · by_cases hc : c = '\n'
      · have ht : truncF (c :: cs) = [c] := by simp [truncF, hm, hc]
        rw [ht]
        simp only [linesAux, if_pos hc]
        rw [linesAux_no_newline cs hm []]
      · have ht : truncF (c :: cs) = [] := by simp [truncF, hm, hc]
        rw [ht]
        simp only [linesAux, if_neg hc]
        rw [linesAux_no_newline cs hm (acc ++ [c])]

theorem readLines_trunc (s : String) :
    readLines s = readLines (truncAfterLastNewline s) := by
  show (linesAux s.data []).map _
    = (linesAux (truncAfterLastNewline s).data []).map _
  have hd : (truncAfterLastNewline s).data
      = (s.data.reverse.dropWhile (fun c => c != '\n')).reverse := rfl
  rw [hd, truncF_eq, linesAux_truncF s.data []]

theorem replaceCommas_empty_iff (s : String) :
    replaceCommas s = "" ↔ s = "" := by
  constructor
  · intro h
    have hdata : (replaceCommas s).data = [] := by rw [h]
    have hmap : s.data.map (fun c => if c = ',' then '_' else c) = [] := hdata
    have hnil : s.data = [] := List.map_eq_nil_iff.mp hmap
    have h0 : s = String.mk s.data := rfl
    rw [h0, hnil]
  · intro h
    rw [h]
    rfl

theorem routingKey_eq_spec (record : Rec) :
    routingKey record = routingKeySpec record := by
  show (if replaceCommas (mapGet record "WARC-Identified-Content-Language") = ""
        then "eng" else replaceCommas (mapGet record "WARC-Identified-Content-Language"))
    = (if mapGet record "WARC-Identified-Content-Language" = ""
        then "eng" else replaceCommas (mapGet record "WARC-Identified-Content-Language"))
  by_cases h : mapGet record "WARC-Identified-Content-Language" = ""
  · rw [if_pos ((replaceCommas_empty_iff _).mpr h), if_pos h]
  · rw [if_neg (fun he => h ((replaceCommas_empty_iff _).mp he)), if_neg h]

/-- Shared characterisation of a reserved `key: value` line: a
non-sentinel line with a colon whose text before the first colon matches a
reserved word stores the trimmed remainder under the original-casing
key. -/
theorem step_reserved (cfg : Config) (outputDir : String) (st : RunState)
    (l : String)
    (h1 : trimSpace l ≠ cfg.recordStart)
    (h2 : ':' ∈ l.data)
    (h3 : isReservedWord cfg (beforeFirstColon l) = true) :
    (step cfg outputDir st l).record
      = mapSet st.record (beforeFirstColon l)
          (trimSpace (afterFirstColon l)) := by
  rw [step_ns_record cfg outputDir st l h1]
  rw [splitColon_head]
  rw [if_pos ⟨(splitColon_two_iff l).mpr h2, h3⟩]
  rw [splitColon_tail_join]

/-- Shared characterisation of a body line: a non-sentinel line with no
colon, or whose candidate key is not reserved, is appended verbatim to the
`"data"` accumulator. -/
theorem step_body (cfg : Config) (outputDir : String) (st : RunState)
    (l : String)
    (h1 : trimSpace l ≠ cfg.recordStart)
    (h2 : ':' ∉ l.data ∨ isReservedWord cfg (beforeFirstColon l) = false) :
    (step cfg outputDir st l).record
      = mapSet st.record "data" (mapGet st.record "data" ++ l) := by
  have hcond : ¬(2 ≤ (splitColon l).length
      ∧ isReservedWord cfg ((splitColon l).headD "") = true) := by
    rw [splitColon_head, splitColon_two_iff]
    rcases h2 with h2 | h2
    · exact fun hh => h2 hh.1
    · intro hh
      rw [h2] at hh
      exact Bool.false_ne_true hh.2
  rw [step_ns_record cfg outputDir st l h1, if_neg hcond]

/-! ### The claims -/

/-- C1: on the line stream `"A:1\n"`, `"---\n"`, `"B:2\n"` with sentinel
`"---"` and reserved words `{A, B}`, `processFile` emits exactly the two
records `{A: "1"}` then `{B: "2"}` (the second from the end-of-stream
flush) and nothing else. -/
theorem c1_example_two_records :
    (processFile ⟨["A", "B"], "---"⟩ "out" "A:1\n---\nB:2\n").1.emitted
      = [[("A", "1")], [("B", "2")]] := by decide

/-- C2: on every cleanly ending line stream the run emits exactly one
record per sentinel line plus exactly one unconditional end-of-stream
emission of the accumulated record (so `countSentinels + 1` emissions in
total), and a sentinel as the very first line emits one empty record. -/
theorem c2_sentinel_and_eof_emissions (cfg : Config) (outputDir : String)
    (ls : List String) :
    ((runEvents cfg outputDir (ls.map LineEvent.line) initState).1).emitted.length
      = countSentinels cfg ls + 1
    ∧ (∀ l ls2, trimSpace l = cfg.recordStart →
        ((runEvents cfg outputDir
            ((l :: ls2).map LineEvent.line) initState).1).emitted.head?
          = some []) := by
  constructor
  · have h := runEvents_emitted_length cfg outputDir ls initState
    simpa [initState] using h
  · intro l ls2 h
    rw [List.map_cons, runEvents_cons_line]
    obtain ⟨t, ht⟩ :=
      runEvents_emitted_extend cfg outputDir ls2 (step cfg outputDir initState l)
    rw [ht, step_emitted]
    simp [h, initState]

/-- Witness for C2 at the sentinel-first stream `"---\n"`, `"x\n"` with
sentinel `"---"`. -/
theorem c2_witness :
    trimSpace "---\n" = ("---" : String)
    ∧ ((runEvents ⟨["A"], "---"⟩ "out"
        (["---\n", "x\n"].map LineEvent.line) initState).1).emitted.head?
      = some [] := by
  refine ⟨by decide, ?_⟩
  exact (c2_sentinel_and_eof_emissions ⟨["A"], "---"⟩ "out" []).2
    "---\n" ["x\n"] (by decide)

/-- C3: a non-sentinel line containing a colon whose text before the
first colon case-insensitively matches a reserved word stores, under the
key exactly as spelled in the line, the remainder after the first colon
(rejoined with `':'`) trimmed of whitespace. -/
theorem c3_reserved_field_line (cfg : Config) (outputDir : String)
    (st : RunState) (l : String)
    (h1 : trimSpace l ≠ cfg.recordStart)
    (h2 : ':' ∈ l.data)
    (h3 : isReservedWord cfg (beforeFirstColon l) = true) :
    (step cfg outputDir st l).record
      = mapSet st.record (beforeFirstColon l)
          (trimSpace (afterFirstColon l)) :=
  step_reserved cfg outputDir st l h1 h2 h3

/-- Witness for C3 at the claim's example: reserved word `WARC-Type`,
line `"warc-type: response\n"`, yielding key `warc-type` (original
casing) with value `"response"`. -/
theorem c3_witness :
    trimSpace "warc-type: response\n" ≠ ("---" : String)
    ∧ ':' ∈ "warc-type: response\n".data
    ∧ isReservedWord ⟨["WARC-Type"], "---"⟩
        (beforeFirstColon "warc-type: response\n") = true
    ∧ (step ⟨["WARC-Type"], "---"⟩ "out" initState
        "warc-type: response\n").record = [("warc-type", "response")] := by
  refine ⟨by decide, by decide, by decide, ?_⟩
  have h := c3_reserved_field_line ⟨["WARC-Type"], "---"⟩ "out" initState
    "warc-type: response\n" (by decide) (by decide) (by decide)
  rw [h]
  decide

/-- C4: a non-sentinel line with no colon, or whose candidate key is not
reserved, is appended verbatim (untrimmed, newline included) to the
`"data"` body accumulator, and every other key of the record is left
unchanged. -/
theorem c4_body_line (cfg : Config) (outputDir : String)
    (st : RunState) (l : String)
    (h1 : trimSpace l ≠ cfg.recordStart)
    (h2 : ':' ∉ l.data ∨ isReservedWord cfg (beforeFirstColon l) = false) :
    (step cfg outputDir st l).record
      = mapSet st.record "data" (mapGet st.record "data" ++ l)
    ∧ (∀ k, k ≠ "data" →
        mapGet (step cfg outputDir st l).record k = mapGet st.record k) := by
  have hb := step_body cfg outputDir st l h1 h2
  refine ⟨hb, ?_⟩
  intro k hk
  rw [hb]
  exact mapGet_mapSet_ne st.record "data" k _ hk

/-- Witness for C4 at the claim's example: reserved set `{A}`, line
`"B: 2\n"`, leaving the body accumulator holding the literal line. -/
theorem c4_witness :
    trimSpace "B: 2\n" ≠ ("---" : String)
    ∧ isReservedWord ⟨["A"], "---"⟩ (beforeFirstColon "B: 2\n") = false
    ∧ (step ⟨["A"], "---"⟩ "out" initState "B: 2\n").record
        = [("data", "B: 2\n")] := by
  refine ⟨by decide, by decide, ?_⟩
  have h := c4_body_line ⟨["A"], "---"⟩ "out" initState "B: 2\n"
    (by decide) (Or.inr (by decide))
  rw [h.1]
  decide

/-- C5: every routed record goes to
`outputRoot/<language with commas replaced by underscores, default eng>/output.jsonl`
— the code's routing key agrees with that reading (`routingKeySpec`), the
record is appended to the file at the destination path, a record lacking
the language field routes to `eng/output.jsonl`, and language `"eng,fra"`
routes to `eng_fra/output.jsonl`. -/
theorem c5_routing (outputDir : String) (record : Rec) (st : RunState) :
    routingKey record = routingKeySpec record
    ∧ filesGet (writeRecordToJSONL outputDir record st).files
        (destPath outputDir record)
      = filesGet st.files (destPath outputDir record) ++ [record]
    ∧ destPath outputDir ([] : Rec) = outputDir ++ "/eng/output.jsonl"
    ∧ destPath outputDir [("WARC-Identified-Content-Language", "eng,fra")]
      = outputDir ++ "/eng_fra/output.jsonl" := by
  refine ⟨routingKey_eq_spec record, ?_, ?_, ?_⟩
  · rw [write_files]
    exact filesGet_filesAppend_self st.files (destPath outputDir record) record
  · have h1 : routingKey ([] : Rec) = "eng" := by decide
    show outputDir ++ "/" ++ routingKey ([] : Rec) ++ "/output.jsonl"
      = outputDir ++ "/eng/output.jsonl"
    rw [h1, String.append_assoc, String.append_assoc]
    have h2 : ("/" : String) ++ ("eng" ++ "/output.jsonl")
        = "/eng/output.jsonl" := by decide
    rw [h2]
  · have h1 : routingKey [("WARC-Identified-Content-Language", "eng,fra")]
        = "eng_fra" := by decide
    show outputDir ++ "/"
        ++ routingKey [("WARC-Identified-Content-Language", "eng,fra")]
        ++ "/output.jsonl"
      = outputDir ++ "/eng_fra/output.jsonl"
    rw [h1, String.append_assoc, String.append_assoc]
    have h2 : ("/" : String) ++ ("eng_fra" ++ "/output.jsonl")
        = "/eng_fra/output.jsonl" := by decide
    rw [h2]

/-- C6: within one run the router never opens the same destination twice
(the open log has no duplicates), and routing `n ≥ 1` copies of one record
opens its destination exactly once and appends all `n` encoded records to
that one file in order. -/
theorem c6_handle_cache (outputDir : String) :
    (∀ records : List Rec,
      (routeAll outputDir records initState).opens.Nodup)
    ∧ (∀ (r : Rec) (n : Nat), 1 ≤ n →
        (routeAll outputDir (List.replicate n r) initState).opens
          = [destPath outputDir r]
        ∧ filesGet (routeAll outputDir (List.replicate n r) initState).files
            (destPath outputDir r) = List.replicate n r) := by
  constructor
  · intro records
    obtain ⟨e, nd⟩ :=
      routeAll_inv outputDir records initState rfl List.nodup_nil
    rw [e]
    exact nd
  · intro r n hn
    obtain ⟨m, rfl⟩ : ∃ m, n = m + 1 := ⟨n - 1, by omega⟩
    rw [List.replicate_succ, routeAll_cons]
    have hopens : (writeRecordToJSONL outputDir r initState).opens
        = [destPath outputDir r] := by
      rw [write_opens]
      simp [initState]
    have hhandles : (writeRecordToJSONL outputDir r initState).handles
        = [destPath outputDir r] := by
      rw [write_handles]
      simp [initState]
    have hfiles : filesGet (writeRecordToJSONL outputDir r initState).files
        (destPath outputDir r) = [r] := by
      rw [write_files, filesGet_filesAppend_self]
      simp [initState, filesGet]
    have hc : (writeRecordToJSONL outputDir r initState).handles.contains
        (destPath outputDir r) = true := by
      rw [hhandles]
      simp
    obtain ⟨i1, i2, i3⟩ := routeAll_replicate_cached outputDir r m
      (writeRecordToJSONL outputDir r initState) hc
    refine ⟨by rw [i1, hopens], ?_⟩
    rw [i3, hfiles]
    simp [List.replicate_succ]

/-- Witness for C6: routing 1000 records with language `"eng"` yields one
destination opened once holding the 1000 records in order. -/
theorem c6_witness :
    1 ≤ 1000
    ∧ (routeAll "out"
        (List.replicate 1000 ([("WARC-Identified-Content-Language", "eng")] : Rec))
        initState).opens
      = [destPath "out" [("WARC-Identified-Content-Language", "eng")]]
    ∧ filesGet (routeAll "out"
        (List.replicate 1000 ([("WARC-Identified-Content-Language", "eng")] : Rec))
        initState).files
        (destPath "out" [("WARC-Identified-Content-Language", "eng")])
      = List.replicate 1000 ([("WARC-Identified-Content-Language", "eng")] : Rec) := by
  have h := (c6_handle_cache "out").2
    [("WARC-Identified-Content-Language", "eng")] 1000 (by decide)
  exact ⟨by decide, h.1, h.2⟩

/-- C7 counterexample: on `"A:1\n"`, `"---\n"` (one sentinel, stream
ending immediately after the final sentinel) the code emits two records —
the flushed `{A: "1"}` and the empty record of the unconditional
end-of-stream emission — not the one record the claim predicts for this
case. -/
theorem c7_cex :
    countSentinels ⟨["A"], "---"⟩ ["A:1\n", "---\n"] = 1
    ∧ ((runEvents ⟨["A"], "---"⟩ "out"
        (["A:1\n", "---\n"].map LineEvent.line) initState).1).emitted
      = [[("A", "1")], []]
    ∧ ((runEvents ⟨["A"], "---"⟩ "out"
        (["A:1\n", "---\n"].map LineEvent.line) initState).1).emitted.length
      ≠ 1 := by
  refine ⟨by decide, by decide, by decide⟩

/-- C7 amended: for every cleanly ending input the parser yields exactly
`N + 1` records, where `N` is the number of sentinel lines — also when the
stream ends immediately after the final sentinel, because the
end-of-stream flush is unconditional. -/
theorem c7_record_count (cfg : Config) (outputDir : String)
    (ls : List String) :
    ((runEvents cfg outputDir (ls.map LineEvent.line) initState).1).emitted.length
      = countSentinels cfg ls + 1 := by
  have h := runEvents_emitted_length cfg outputDir ls initState
  simpa [initState] using h

/-- C8 counterexample: with reserved word `A`, the two field lines
`"A:1\n"` and `"a:2\n"` (same reserved field, different casing) leave TWO
entries in the record — the mapping does not hold exactly one entry for
that field. -/
theorem c8_cex :
    (step ⟨["A"], "---"⟩ "out"
        (step ⟨["A"], "---"⟩ "out" initState "A:1\n") "a:2\n").record
      = [("A", "1"), ("a", "2")]
    ∧ (step ⟨["A"], "---"⟩ "out"
        (step ⟨["A"], "---"⟩ "out" initState "A:1\n") "a:2\n").record.countP
        (fun p => equalFold p.1 "A") ≠ 1 := by
  refine ⟨by decide, by decide⟩

/-- C8 amended: when the same reserved field occurs on several field
lines of one record with the SAME spelling, the last occurrence wins —
exactly one entry for that key, holding the last line's value, with no
error; occurrences that differ in casing are stored under their distinct
original spellings as separate entries. -/
theorem c8_last_occurrence_wins (cfg : Config) (outputDir : String)
    (st : RunState) (l1 l2 : String)
    (hnd : (st.record.map Prod.fst).Nodup)
    (h1 : trimSpace l1 ≠ cfg.recordStart) (h2 : ':' ∈ l1.data)
    (h3 : isReservedWord cfg (beforeFirstColon l1) = true)
    (h4 : trimSpace l2 ≠ cfg.recordStart) (h5 : ':' ∈ l2.data)
    (h6 : isReservedWord cfg (beforeFirstColon l2) = true)
    (hk : beforeFirstColon l1 = beforeFirstColon l2) :
    mapGet (step cfg outputDir (step cfg outputDir st l1) l2).record
        (beforeFirstColon l2)
      = trimSpace (afterFirstColon l2)
    ∧ (step cfg outputDir (step cfg outputDir st l1) l2).record.countP
        (fun p => p.1 == beforeFirstColon l2) = 1 := by
  rw [step_reserved cfg outputDir _ l2 h4 h5 h6,
    step_reserved cfg outputDir st l1 h1 h2 h3, hk]
  constructor
  · exact mapGet_mapSet_self _ _ _
  · rw [countP_key]
    exact count_keys_mapSet _ _ _ (nodupKeys_mapSet st.record _ _ hnd)

/-- Witness for C8 at reserved word `A` with lines `"A:1\n"`, `"A:2\n"`:
one entry keyed `A`, valued from the last line. -/
theorem c8_witness :
    beforeFirstColon "A:1\n" = beforeFirstColon "A:2\n"
    ∧ mapGet (step ⟨["A"], "---"⟩ "out"
        (step ⟨["A"], "---"⟩ "out" initState "A:1\n") "A:2\n").record
        (beforeFirstColon "A:2\n")
      = trimSpace (afterFirstColon "A:2\n")
    ∧ (step ⟨["A"], "---"⟩ "out"
        (step ⟨["A"], "---"⟩ "out" initState "A:1\n") "A:2\n").record.countP
        (fun p => p.1 == beforeFirstColon "A:2\n") = 1 := by
  have h := c8_last_occurrence_wins ⟨["A"], "---"⟩ "out" initState
    "A:1\n" "A:2\n" (by decide) (by decide) (by decide) (by decide)
    (by decide) (by decide) (by decide) (by decide)
  exact ⟨by decide, h.1, h.2⟩

/-- C9 counterexample: a run hitting a read fault after one record was
routed returns with one handle opened (and cached) but no close event —
the error path does not close cached handles. -/
theorem c9_cex :
    ((runEvents ⟨["A"], "---"⟩ "out"
        [LineEvent.line "A:1\n", LineEvent.line "---\n", LineEvent.fault]
        initState).1).opens = ["out/eng/output.jsonl"]
    ∧ ((runEvents ⟨["A"], "---"⟩ "out"
        [LineEvent.line "A:1\n", LineEvent.line "---\n", LineEvent.fault]
        initState).1).closes = []
    ∧ (runEvents ⟨["A"], "---"⟩ "out"
        [LineEvent.line "A:1\n", LineEvent.line "---\n", LineEvent.fault]
        initState).2 = false := by
  refine ⟨by decide, by decide, by decide⟩

/-- C9 amended: on the success path (stream consumed to clean EOF) every
cached handle is closed exactly once — the close log equals the open log
and has no duplicates; on the error path (read or write fault) the
function returns without closing the cached handles. -/
theorem c9_success_path_closes (cfg : Config) (outputDir : String)
    (ls : List String) :
    (runEvents cfg outputDir (ls.map LineEvent.line) initState).2 = true
    ∧ ((runEvents cfg outputDir (ls.map LineEvent.line) initState).1).closes
      = ((runEvents cfg outputDir (ls.map LineEvent.line) initState).1).opens
    ∧ ((runEvents cfg outputDir (ls.map LineEvent.line) initState).1).closes.Nodup := by
  obtain ⟨e, nd⟩ := runEvents_success_closed cfg outputDir ls initState
    rfl rfl List.nodup_nil
  exact ⟨runEvents_line_true cfg outputDir ls initState, e, nd⟩

/-- C10: a trailing line not terminated by a newline is discarded
unprocessed — the whole run on any input equals the run on the input
truncated after its last newline — while the mandatory end-of-stream
emission still happens (at least one record is emitted). -/
theorem c10_unterminated_tail_dropped (cfg : Config) (outputDir : String)
    (s : String) :
    processFile cfg outputDir s
      = processFile cfg outputDir (truncAfterLastNewline s)
    ∧ 1 ≤ ((processFile cfg outputDir s).1).emitted.length := by
  constructor
  · rw [processFile, processFile, readLines_trunc]
  · have h := runEvents_emitted_length cfg outputDir (readLines s) initState
    rw [processFile, h]
    omega
